import Mathlib

namespace Starks

variable {K : Type} [Field K] [DecidableEq K]

/-!
Verification of the STARK prover/verifier core (`starks` repository).

The Python sources embedded here are `starks/stark.py`, `starks/air.py` and
`starks/poly_utils.py`.  Collaborator modules that the package imports but
that are not part of the core sources (`modp.py`, `polynomial.py`, `fft.py`,
`merkle_tree.py`, `utils.py`, `fri.py`) are modelled from the specification;
each such definition carries a doc comment starting with `Modelled from the
spec:`.

Field elements are modelled as elements of an arbitrary decidable field `K`
(the spec fixes them to integers in `[0, p)` under arithmetic mod a prime
`p`; `ZMod p` is such a field), except where the Python code manipulates raw
Python integers, in which case `Int`/`Nat` with explicit `%` is used.
-/

/-- Python exception kinds that the embedded code can raise. -/
inductive PyError where
  | assertionError
  | typeError
  | indexError
  | zeroDivisionError
  deriving DecidableEq, Repr

/-! ## `poly_utils.multi_inv`

```python
def multi_inv(field, values):
  partials = [field(1)]
  for val in values:
    if val == 0:
      mul_value = 1
    else:
      mul_value = val
    partials.append(partials[-1] * mul_value)
  assert len(partials) == len(values) + 1
  inv = 1 / partials[-1]
  outputs = [0] * len(values)
  for i in range(len(values), 0, -1):
    outputs[i - 1] = partials[i - 1] * inv if values[i - 1] else 0
    if values[i-1] != 0:
      inv = inv * values[i - 1]
  return outputs
```

Modelled from the spec: the element type (`modp.py` is not among the
sources) is a prime-field element, i.e. "an integer in `[0, p)`", so
equality with `0` and Python truthiness (`if values[i-1]`) are the
nonzero test, and `1 / x` is field division, which fails on `0` with a
`ZeroDivisionError`.  Everything else below is a direct transcription of
the function body. -/

/-- The adjusted multiplicand of the forward pass: `1` for a zero entry,
the entry itself otherwise (the `mul_value` local). -/
def mulValue (v : K) : K := if v = 0 then 1 else v

/-- Forward pass of `multi_inv`: the `partials` list (length `n + 1`,
starting at `field(1)`). -/
def multiInvParts (values : List K) : List K :=
  values.scanl (fun acc v => acc * mulValue v) 1

/-- Backward pass of `multi_inv`: the loop `for i in range(len(values), 0, -1)`.
The list argument pairs `values[i-1]` with `partials[i-1]`; the rightmost
pair is processed first (with the incoming `inv`), exactly as the Python
loop counts `i` down.  Returns the `outputs` list and the final `inv`. -/
def multiInvBack : List (K × K) → K → List K × K
  | [], inv => ([], inv)
  | (v, part) :: rest, inv =>
      let r := multiInvBack rest inv
      let out : K := if v = 0 then 0 else part * r.2
      let inv2 : K := if v = 0 then r.2 else r.2 * v
      (out :: r.1, inv2)

/-- `poly_utils.multi_inv`.  The only fallible operation in the body is
`inv = 1 / partials[-1]`. -/
def multi_inv (values : List K) : Except PyError (List K) :=
  let parts := multiInvParts values
  let total := parts.getLastD 1
  if total = 0 then .error .zeroDivisionError
  else
    .ok (multiInvBack (values.zip parts) total⁻¹).1

/-- The pointwise specification of the batched inverse: `0` maps to `0`,
a nonzero element to its inverse. -/
def pointInv (v : K) : K := if v = 0 then 0 else v⁻¹

/-- Product of the adjusted multiplicands of a value list. -/
def adjProd (values : List K) : K := (values.map mulValue).prod

/-! ## Polynomial algebra

`polynomial.py` (the `polysOver` factory) is not among the sources; the
spec describes it: "Univariate polynomials are represented by a
coefficient sequence in ascending degree.  Supported: evaluation
(Horner), multiplication (schoolbook acceptable), long division
(quotient + remainder), construction of `zpoly(roots)`, Lagrange
interpolation".  Coefficient lists below are ascending-degree. -/

/-- Modelled from the spec: polynomial evaluation by Horner's rule
(`polynomial.py.__call__` / `eval_poly_at`). -/
def evalPoly (l : List K) (x : K) : K := l.foldr (fun c acc => c + x * acc) 0

/-- Multiply by `c` and shift up by `k` powers of `X`: the partial term
`c · X^k · d` subtracted at each long-division step. -/
def shiftScale (c : K) (k : Nat) (d : List K) : List K :=
  List.replicate k 0 ++ d.map (fun a => c * a)

/-- Place coefficient `c` at degree `k` above quotient-so-far `q`. -/
def setCoeff (q : List K) (k : Nat) (c : K) : List K :=
  q ++ List.replicate (k - q.length) 0 ++ [c]

/-- Modelled from the spec: one pass of polynomial long division.  The
fuel argument bounds the number of eliminated leading coefficients (the
caller passes the dividend length, which suffices: each step shortens
the working dividend by one). -/
def polyDivModAux (d : List K) (dlead : K) : Nat → List K → List K × List K
  | 0, p => ([], p)
  | fuel + 1, p =>
      if p.length < d.length ∨ d.length = 0 then ([], p)
      else
        let k := p.length - d.length
        let c := p.getLastD 0 / dlead
        let reduced := (p.zipWith (fun a b => a - b) (shiftScale c k d)).dropLast
        let qr := polyDivModAux d dlead fuel reduced
        (setCoeff qr.1 k c, qr.2)

/-- Modelled from the spec: "long division (quotient + remainder)" of
coefficient lists, dividend first (`polynomial.py.__divmod__`; the
code's `root / polysOver([-x, 1])` takes the quotient). -/
def polyDivMod (p d : List K) : List K × List K :=
  polyDivModAux d (d.getLastD 0) p.length p

/-! ## `poly_utils.zpoly`

```python
def zpoly(field, roots):
  polysOver = polynomials_over(field).factory
  root = [field(1)]
  for x in roots:
    root.insert(0, field(0))
    for j in range(len(root) - 1):
      root[j] -= root[j + 1] * x
  return polysOver(root)
```
-/

/-- The inner update loop of `zpoly`: `root[j] -= root[j+1] * x` for
`j` ascending over all but the last index (each read of `root[j+1]`
sees the not-yet-updated value, so the loop is a pure sliding map). -/
def zstepAux (x : K) : List K → List K
  | [] => []
  | [a] => [a]
  | a :: b :: rest => (a - b * x) :: zstepAux x (b :: rest)

/-- `poly_utils.zpoly` (the `print` statements have no effect on the
value and are omitted). -/
def zpoly (roots : List K) : List K :=
  roots.foldl (fun root x => zstepAux x (0 :: root)) [1]

/-! ## `poly_utils.lagrange_interp` and the optimised 2/4-point paths

```python
def lagrange_interp(field, xs, ys):
  root = zpoly(field, xs)
  polysOver = polynomials_over(field).factory
  assert len(root) == len(ys) + 1
  nums = [root / polysOver([-x, 1]) for x in xs]
  denoms = [nums[i](xs[i]) for i in range(len(xs))]
  invdenoms = multi_inv(field, denoms)
  b = [0 for y in ys]
  for i in range(len(xs)):
    yslice = ys[i] * invdenoms[i]
    num_coefficients = nums[i].coefficients
    for j in range(len(ys)):
      if num_coefficients[j] and ys[i]:
        b[j] += num_coefficients[j] * yslice
  return polysOver(b)
```

Truthiness of a field element is again modelled as the nonzero test. -/

def lagrange_interp (xs ys : List K) : Except PyError (List K) :=
  let root := zpoly xs
  if root.length ≠ ys.length + 1 then .error .assertionError
  else
    let nums := xs.map (fun x => (polyDivMod root [-x, 1]).1)
    let denoms := (List.range xs.length).map (fun i =>
        evalPoly (nums.getD i []) (xs.getD i 0))
    match multi_inv denoms with
    | .error e => .error e
    | .ok invdenoms =>
        .ok ((List.range ys.length).map (fun j =>
          ((List.range xs.length).map (fun i =>
            if (nums.getD i []).getD j 0 ≠ 0 ∧ ys.getD i 0 ≠ 0 then
              (nums.getD i []).getD j 0 * (ys.getD i 0 * invdenoms.getD i 0)
            else 0)).sum))

/-- `poly_utils.lagrange_interp_2`.

```python
def lagrange_interp_2(field, xs, ys):
  polysOver = polynomials_over(field).factory
  eq0 = polysOver([-xs[1], 1])
  eq1 = polysOver([-xs[0], 1])
  e0 = eq0(xs[0])
  e1 = eq1(xs[1])
  invall = 1/(e0 * e1)
  inv_y0 = ys[0] * invall * e1
  inv_y1 = ys[1] * invall * e0
  return polysOver([(eq0.coefficients[i] * inv_y0 + eq1.coefficients[i] * inv_y1) for i in range(2)])
```

(The `isinstance(xs, list)` shims are identities for list arguments.)
`1/z` is field division, failing on `z = 0`. -/
def lagrange_interp_2 (xs ys : List K) : Except PyError (List K) :=
  let eq0 : List K := [-(xs.getD 1 0), 1]
  let eq1 : List K := [-(xs.getD 0 0), 1]
  let e0 := evalPoly eq0 (xs.getD 0 0)
  let e1 := evalPoly eq1 (xs.getD 1 0)
  if e0 * e1 = 0 then .error .zeroDivisionError
  else
    let invall := (e0 * e1)⁻¹
    let inv_y0 := ys.getD 0 0 * invall * e1
    let inv_y1 := ys.getD 1 0 * invall * e0
    .ok ((List.range 2).map (fun i => eq0.getD i 0 * inv_y0 + eq1.getD i 0 * inv_y1))

/-- `poly_utils.lagrange_interp_4` (same transcription conventions;
`x01, ..., x23` are the pairwise products, `eq0..eq3` the cubic
numerators, `invall = 1/(e01 * e23)`). -/
def lagrange_interp_4 (xs ys : List K) : Except PyError (List K) :=
  let x0 := xs.getD 0 0
  let x1 := xs.getD 1 0
  let x2 := xs.getD 2 0
  let x3 := xs.getD 3 0
  let x01 := x0 * x1
  let x02 := x0 * x2
  let x03 := x0 * x3
  let x12 := x1 * x2
  let x13 := x1 * x3
  let x23 := x2 * x3
  let eq0 : List K := [-x12 * x3, x12 + x13 + x23, -x1 - x2 - x3, 1]
  let eq1 : List K := [-x02 * x3, x02 + x03 + x23, -x0 - x2 - x3, 1]
  let eq2 : List K := [-x01 * x3, x01 + x03 + x13, -x0 - x1 - x3, 1]
  let eq3 : List K := [-x01 * x2, x01 + x02 + x12, -x0 - x1 - x2, 1]
  let e0 := evalPoly eq0 x0
  let e1 := evalPoly eq1 x1
  let e2 := evalPoly eq2 x2
  let e3 := evalPoly eq3 x3
  let e01 := e0 * e1
  let e23 := e2 * e3
  if e01 * e23 = 0 then .error .zeroDivisionError
  else
    let invall := (e01 * e23)⁻¹
    let inv_y0 := ys.getD 0 0 * invall * e1 * e23
    let inv_y1 := ys.getD 1 0 * invall * e0 * e23
    let inv_y2 := ys.getD 2 0 * invall * e01 * e3
    let inv_y3 := ys.getD 3 0 * invall * e01 * e2
    .ok ((List.range 4).map (fun i =>
      eq0.getD i 0 * inv_y0 + eq1.getD i 0 * inv_y1 +
      eq2.getD i 0 * inv_y2 + eq3.getD i 0 * inv_y3))

/-! ## Bridge from coefficient lists to `Polynomial K` (proof layer only) -/

open Polynomial in
/-- Interpretation of an ascending coefficient list as a polynomial. -/
noncomputable def toPoly : List K → Polynomial K
  | [] => 0
  | c :: l => C c + X * toPoly l

/-! Named components of the `lagrange_interp` body, for the proofs. -/

/-- The `nums` list of `lagrange_interp`: quotients of the master
numerator by each `(x - x_i)`. -/
def lagrangeNums (xs : List K) : List (List K) :=
  xs.map (fun x => (polyDivMod (zpoly xs) [-x, 1]).1)

/-- The `denoms` list of `lagrange_interp`. -/
def lagrangeDenoms (xs : List K) : List K :=
  (List.range xs.length).map (fun i =>
    evalPoly ((lagrangeNums xs).getD i []) (xs.getD i 0))

/-- The output coefficient list of `lagrange_interp` (the `b` array),
with the batched inverse replaced by its closed form. -/
def lagrangeOut (xs ys : List K) : List K :=
  (List.range ys.length).map (fun j =>
    ((List.range xs.length).map (fun i =>
      if ((lagrangeNums xs).getD i []).getD j 0 ≠ 0 ∧ ys.getD i 0 ≠ 0 then
        ((lagrangeNums xs).getD i []).getD j 0
          * (ys.getD i 0 * ((lagrangeDenoms xs).map pointInv).getD i 0)
      else 0)).sum)

/-! ## `air.get_computational_trace`

```python
def get_computational_trace(inp, steps, width, step_polys):
  computational_trace = [inp]
  for i in range(steps - 1):
    next_state = [step_polys[i](computational_trace[-1]) for i in range(width)]
    computational_trace.append(next_state)
  output = computational_trace[-1]
  return computational_trace, output
```

The comprehension variable `i` shadows the loop counter (Python 3
comprehensions have their own scope), so each appended state applies
`step_polys[j]` to the previous state for `j < width`; the loop index
does not enter the state.  Step polynomials are callables on states
(multivariate polynomial objects in the tests) and are modelled as
functions `List α → α`. -/

/-- The loop body state of `air.get_computational_trace` after `n`
iterations: the trace so far and its last element. -/
def traceAux {α : Type} [Inhabited α] (width : Nat)
    (step_polys : List (List α → α)) (inp : List α) :
    Nat → List (List α) × List α
  | 0 => ([inp], inp)
  | n + 1 =>
      let r := traceAux width step_polys inp n
      let ns := (List.range width).map (fun j => (step_polys.getD j default) r.2)
      (r.1 ++ [ns], ns)

/-- `air.get_computational_trace` (the version taking a list of `width`
step polynomials). -/
def get_computational_trace {α : Type} [Inhabited α] (inp : List α)
    (steps width : Nat) (step_polys : List (List α → α)) :
    List (List α) × List α :=
  let r := traceAux width step_polys inp (steps - 1)
  (r.1, r.2)

/-! ## `stark.py`: module constants and spec-modelled collaborators -/

/-- The module-level field modulus of `stark.py`:
`modulus = 2**256 - 2**32 * 351 + 1`. -/
def MODULUS : Nat := 2 ^ 256 - 2 ^ 32 * 351 + 1

/-- `spot_check_security_factor = 80` (stark.py line 15). -/
def spot_check_security_factor : Nat := 80

/-- Modelled from the spec: `utils.is_a_power_of_2` (utils.py is not
among the sources); the standard bit test for a power of two. -/
def is_a_power_of_2 (n : Nat) : Bool := n != 0 && (n &&& (n - 1)) == 0

/-- Fuel-driven modular exponentiation by squaring (the fuel bounds the
number of halvings of the exponent and is set to the exponent itself). -/
def powModAux (p : Nat) : Nat → Nat → Nat → Nat
  | 0, _, _ => 1 % p
  | fuel + 1, b, e =>
      if e = 0 then 1 % p
      else
        let h := powModAux p fuel (b * b % p) (e / 2)
        if e % 2 = 1 then b * h % p else h

/-- Modelled from the spec: exponentiation in the prime field
(`PrimeField.exp`, "exponentiation by squaring"). -/
def powMod (p b e : Nat) : Nat := powModAux p e (b % p) e

/-- Modelled from the spec: the prime-field inverse, via Fermat. -/
def modInv (p a : Nat) : Nat := powMod p a (p - 2)

/-- Modelled from the spec: `fft.fft` (fft.py is not among the sources).
The spec fixes the input/output relation: the forward transform of a
coefficient sequence (zero-padded to the domain size `n`) is its `n`
evaluations on the powers of the root.  The radix-2 algorithm computes
exactly this map; the direct sum is used here. -/
def fftSpec (p : Int) (root : Int) (n : Nat) (vals : List Int) : List Int :=
  (List.range n).map (fun i =>
    ((List.range n).map (fun j => vals.getD j 0 * root ^ (i * j))).sum % p)

/-- Modelled from the spec: `fft.fft` with `inv=True`: evaluations on the
powers of the root back to coefficients, "with final scaling by n^-1"
(the inverse root of an order-`n` root is its `n-1`-st power). -/
def ifftSpec (p : Int) (root : Int) (n : Nat) (vals : List Int) : List Int :=
  let rinv : Int := (root ^ (n - 1)) % p
  let ninv : Int := ((modInv p.toNat n : Nat) : Int)
  (List.range n).map (fun i =>
    (((List.range n).map (fun j => vals.getD j 0 * rinv ^ (i * j))).sum * ninv) % p)

/-! ## `stark.construct_constraint_polynomial`

```python
def construct_constraint_polynomial(comp, params, p_evaluations):
  deg = len(comp.constants)
  constants_extensions = []
  for d in range(deg):
    deg_constants = [[constant] for constant in comp.constants[d]]
    skips2 = comp.steps // len(deg_constants)
    constants_mini_polynomial = fft(deg_constants, modulus, f.exp(params.G1, skips2), inv=True, dims=1)
    constants_mini_extension = fft(constants_mini_polynomial, modulus, f.exp(params.G2, skips2), dims=1)
    constants_extensions.append(constants_mini_extension)
  p_next_step_evals = [p_evaluations[(i + params.extension_factor) % params.precision] for i in range(params.precision)]
  step_p_evals = [comp.step_fn(f, p_evaluations[i], [constants_extensions[d][i][0] for d in range(deg)]) for i in range(params.precision)]
  if comp.dims == 1:
    step_p_evals = [[val] for val in step_p_evals]
  c_of_p_evals = [[p_next[dim] - step_p[dim] % params.modulus for dim in range(comp.dims)] for (p_next, step_p) in zip(p_next_step_evals, step_p_evals)]
  return c_of_p_evals
```

The `comp`/`params` objects are passed as their used fields.  The
per-constant `[[c] for c]` wrapping and the `[0]` unwrapping cancel and
the constants are kept flat.  `step_fn` returns the next state as a
list in every dimension (for `dims == 1` the Python value is a bare
scalar that the code wraps into a singleton; the composition is the
singleton-valued function).  Note that on the last line Python parses
`p_next[dim] - step_p[dim] % params.modulus` as
`p_next[dim] - (step_p[dim] % params.modulus)`: only the step value is
reduced, the difference is not. -/
def construct_constraint_polynomial (dims steps extension_factor precision : Nat)
    (pmod : Int) (G1 G2 : Int) (constants : List (List Int))
    (step_fn : List Int → List Int → List Int)
    (p_evaluations : List (List Int)) : List (List Int) :=
  let deg := constants.length
  let constants_extensions := (List.range deg).map (fun d =>
    let deg_constants := constants.getD d []
    let skips2 := steps / deg_constants.length
    let constants_mini_polynomial :=
      ifftSpec (MODULUS : Int) ((G1 ^ skips2) % (MODULUS : Int))
        deg_constants.length deg_constants
    fftSpec (MODULUS : Int) ((G2 ^ skips2) % (MODULUS : Int))
      (precision / skips2) constants_mini_polynomial)
  let p_next_step_evals := (List.range precision).map (fun i =>
    p_evaluations.getD ((i + extension_factor) % precision) [])
  let step_p_evals := (List.range precision).map (fun i =>
    step_fn (p_evaluations.getD i [])
      ((List.range deg).map (fun d => (constants_extensions.getD d []).getD i 0)))
  (List.zip p_next_step_evals step_p_evals).map (fun pr =>
    (List.range dims).map (fun dim =>
      pr.1.getD dim 0 - pr.2.getD dim 0 % pmod))

/-! ## `stark.py` Fiat–Shamir challenges

```python
k1 = int.from_bytes(blake(mtree[1] + b'\x01'), 'big')
k2 = int.from_bytes(blake(mtree[1] + b'\x02'), 'big')
k3 = int.from_bytes(blake(mtree[1] + b'\x03'), 'big')
k4 = int.from_bytes(blake(mtree[1] + b'\x04'), 'big')
```

(`compute_pseudorandom_linear_combination`, lines 255-258, and
`verify_proof`, lines 453-456, derive them identically from the main
Merkle root.)  No reduction mod the field modulus is applied. -/

/-- Python `int.from_bytes(bs, 'big')` on a byte list. -/
def intFromBytes (bs : List Nat) : Nat := bs.foldl (fun acc b => acc * 256 + b) 0

/-- The challenge derivation `k1..k4` shared by prover and verifier.
Modelled from the spec: `blake` (merkle_tree.py is not among the
sources) is "a fixed 256-bit cryptographic hash", i.e. an arbitrary
function producing a 32-byte digest; it is a parameter here. -/
def compute_ks (blake : List Nat → List Nat) (root : List Nat) : List Nat :=
  [intFromBytes (blake (root ++ [1])), intFromBytes (blake (root ++ [2])),
   intFromBytes (blake (root ++ [3])), intFromBytes (blake (root ++ [4]))]

/-! ## `stark.compute_merkle_spot_checks`

```python
def compute_merkle_spot_checks(mtree, l_mtree, comp, params):
  branches = []
  samples = spot_check_security_factor
  positions = get_pseudorandom_indices(
      l_mtree[1], params.precision, samples, exclude_multiples_of=params.extension_factor)
  for pos in positions:
    branches.append(mk_branch(mtree, pos))
    branches.append(mk_branch(mtree, (pos + params.extension_factor) % params.precision))
    branches.append(mk_branch(l_mtree, pos))
  return branches
```

Modelled from the spec: `mk_branch` and `get_pseudorandom_indices`
(merkle_tree.py / utils.py are not among the sources) are parameters;
per the spec the index sampler returns `samples` positions, which is a
hypothesis of the layout theorem. -/
def compute_merkle_spot_checks {τ β : Type} (mk_branch : τ → Nat → β)
    (mtree l_mtree : τ) (precision extension_factor : Nat)
    (positions : List Nat) : List β :=
  positions.foldl (fun branches pos =>
    branches ++ [mk_branch mtree pos,
                 mk_branch mtree ((pos + extension_factor) % precision),
                 mk_branch l_mtree pos]) []

/-- The openings `verify_proof_at_position` consumes for the `i`-th
sampled position (stark.py lines 380-383): a list of triples
(index into `branches`, whether the opening is checked against the main
root `m_root` rather than `l_root`, Merkle leaf index). -/
def verifier_consumes (precision extension_factor i pos : Nat) :
    List (Nat × Bool × Nat) :=
  [(i * 3, true, pos),
   (i * 3 + 1, true, (pos + extension_factor) % precision),
   (i * 3 + 2, false, pos)]

/-! ## `stark.mk_proof` and `stark.verify_proof`

In this snapshot of the repository neither function can run:

* the module itself fails to import
  (`from starks.poly_utils import PrimeField`, but `poly_utils.py` no
  longer defines `PrimeField`);
* granting the import, `mk_proof` (line 324) and `verify_proof`
  (line 422) both call `Computation(inp, steps, constants, step_fn)`
  while `Computation.__init__(self, dims, inp, steps, constants,
  step_fn)` takes five positional arguments, so Python raises
  `TypeError: __init__() missing 1 required positional argument` before
  any proof is constructed or verified;
* `mk_proof` additionally passes a `dims=` keyword to
  `construct_computation_polynomial(comp, params)` and friends, which
  do not accept it.

The embeddings below model the body up to the failing call: the leading
`assert` statements run in order, the proof tuple unpacking succeeds for
a 4-tuple (modelled by the product type), and the `Computation`
construction raises `TypeError`. -/

/-- `stark.mk_proof` (lines 306-368).  Asserts
`steps <= 2**32 // extension_factor`, `is_a_power_of_2(steps)` and
`len(poly_constants) <= steps` for every element of `constants`, then
reaches `Computation(inp, steps, constants, step_fn)` and raises. -/
def mk_proof (inp : List Int) (steps : Nat) (constants : List (List Int))
    (step_fn : List Int → List Int → List Int)
    (constraint_degree dims extension_factor : Nat) : Except PyError Unit :=
  if ¬(steps ≤ 2 ^ 32 / extension_factor) then .error .assertionError
  else if ¬(is_a_power_of_2 steps) then .error .assertionError
  else if ¬(constants.all (fun poly_constants => poly_constants.length ≤ steps)) then
    .error .assertionError
  else .error .typeError

/-- `stark.verify_proof` (lines 410-467).  Asserts
`steps <= 2**32 // extension_factor`, unpacks the proof 4-tuple, then
reaches `Computation(inp, steps, constants, step_fn)` and raises. -/
def verify_proof {β φ : Type} (inp : List Int) (steps : Nat)
    (constants : List (List Int)) (output : List Int)
    (proof : List Nat × List Nat × List β × φ)
    (step_fn : List Int → List Int → List Int)
    (constraint_degree extension_factor : Nat) : Except PyError Bool :=
  if ¬(steps ≤ 2 ^ 32 / extension_factor) then .error .assertionError
  else
    match proof with
    | (_, _, _, _) => .error .typeError

/-- The per-position chunk of three branches appended by the spot-check
loop. -/
def spotChunk {τ β : Type} (mk_branch : τ → Nat → β) (mtree l_mtree : τ)
    (precision extension_factor pos : Nat) : List β :=
  [mk_branch mtree pos,
   mk_branch mtree ((pos + extension_factor) % precision),
   mk_branch l_mtree pos]

/-- Concatenation of the spot-check chunks over the position list. -/
def spotChunks {τ β : Type} (mk_branch : τ → Nat → β) (mtree l_mtree : τ)
    (precision extension_factor : Nat) : List Nat → List β
  | [] => []
  | pos :: ps => spotChunk mk_branch mtree l_mtree precision extension_factor pos
      ++ spotChunks mk_branch mtree l_mtree precision extension_factor ps

instance : Fact (Nat.Prime 5) := ⟨by norm_num⟩
instance : Fact (Nat.Prime 7) := ⟨by norm_num⟩

open Polynomial

lemma mulValue_ne_zero (v : K) : mulValue v ≠ 0 := by
  unfold mulValue
  split
  · exact one_ne_zero
  · assumption

lemma adjProd_ne_zero (values : List K) : adjProd values ≠ 0 := by
  refine List.prod_ne_zero ?_
  intro hmem
  rcases List.mem_map.mp hmem with ⟨v, _, hv⟩
  exact mulValue_ne_zero v hv

lemma adjProd_nil : adjProd ([] : List K) = 1 := rfl

lemma adjProd_cons (v : K) (vs : List K) :
    adjProd (v :: vs) = mulValue v * adjProd vs := by
  simp [adjProd]

/-- Backward-pass invariant: if the `partials` entries paired with the
values are the running prefix products starting from a nonzero `pref`,
and the incoming `inv` is the inverse of the full product, then the
outputs are the pointwise inverses and the outgoing `inv` is `pref⁻¹`. -/
lemma multiInvBack_spec (vs : List K) : ∀ pref : K, pref ≠ 0 →
    multiInvBack (vs.zip (vs.scanl (fun acc v => acc * mulValue v) pref))
        (pref * adjProd vs)⁻¹
      = (vs.map pointInv, pref⁻¹) := by
  induction vs with
  | nil =>
      intro pref _
      simp [multiInvBack, adjProd_nil]
  | cons v vs ih =>
      intro pref hpref
      have hpref2 : pref * mulValue v ≠ 0 :=
        mul_ne_zero hpref (mulValue_ne_zero v)
      have hprod : pref * adjProd (v :: vs) = pref * mulValue v * adjProd vs := by
        rw [adjProd_cons, mul_assoc]
      rw [List.scanl_cons, List.singleton_append, List.zip_cons_cons, hprod]
      rw [multiInvBack]
      rw [ih (pref * mulValue v) hpref2]
      by_cases hv : v = 0
      · subst hv
        simp [pointInv, mulValue]
      · have hmv : mulValue v = v := by rw [mulValue, if_neg hv]
        simp only [hmv, pointInv, if_neg hv, List.map_cons, Prod.mk.injEq,
          List.cons.injEq, mul_inv]
        refine ⟨⟨?_, trivial⟩, ?_⟩
        · rw [← mul_assoc, mul_inv_cancel₀ hpref, one_mul]
        · rw [mul_assoc, inv_mul_cancel₀ hv, mul_one]

lemma scanl_getLastD (vs : List K) : ∀ pref d : K,
    ((vs.scanl (fun acc v => acc * mulValue v) pref).getLastD d)
      = pref * adjProd vs := by
  induction vs with
  | nil =>
      intro pref d
      simp [adjProd_nil]
  | cons v vs ih =>
      intro pref d
      rw [List.scanl_cons, List.singleton_append, List.getLastD_cons,
        ih (pref * mulValue v) pref, adjProd_cons, mul_assoc]

lemma multiInvParts_getLastD (values : List K) :
    (multiInvParts values).getLastD 1 = adjProd values := by
  unfold multiInvParts
  rw [scanl_getLastD, one_mul]

/-- Closed form of `multi_inv`: it never raises, and returns the pointwise
inverses (with `0` at the zero entries). -/
theorem multi_inv_eq_map (values : List K) :
    multi_inv values = .ok (values.map pointInv) := by
  have h := multiInvBack_spec values 1 one_ne_zero
  rw [one_mul] at h
  simp only [multi_inv, multiInvParts]
  rw [scanl_getLastD values 1 1, one_mul, if_neg (adjProd_ne_zero values), h]

@[simp] lemma toPoly_nil : toPoly ([] : List K) = 0 := rfl

@[simp] lemma toPoly_cons (c : K) (l : List K) :
    toPoly (c :: l) = C c + X * toPoly l := rfl

@[simp] lemma eval_toPoly (l : List K) (x : K) :
    (toPoly l).eval x = evalPoly l x := by
  induction l with
  | nil => simp [evalPoly]
  | cons c l ih =>
      rw [toPoly_cons]
      simp only [eval_add, eval_C, eval_mul, eval_X]
      rw [ih]
      rfl

lemma toPoly_replicate_zero (k : Nat) :
    toPoly (List.replicate k (0 : K)) = 0 := by
  induction k with
  | zero => rfl
  | succ k ih => rw [List.replicate_succ, toPoly_cons, ih]; simp

lemma toPoly_append (a b : List K) :
    toPoly (a ++ b) = toPoly a + X ^ a.length * toPoly b := by
  induction a with
  | nil => simp
  | cons c l ih =>
      rw [List.cons_append, toPoly_cons, toPoly_cons, ih, List.length_cons,
        pow_succ]
      ring

lemma toPoly_replicate_zero_append (k : Nat) (l : List K) :
    toPoly (List.replicate k (0 : K) ++ l) = X ^ k * toPoly l := by
  rw [toPoly_append, toPoly_replicate_zero, List.length_replicate]
  simp

lemma toPoly_map_mul (c : K) (l : List K) :
    toPoly (l.map (fun a => c * a)) = C c * toPoly l := by
  induction l with
  | nil => simp
  | cons a l ih =>
      rw [List.map_cons, toPoly_cons, toPoly_cons, ih, map_mul]
      ring

lemma toPoly_shiftScale (c : K) (k : Nat) (d : List K) :
    toPoly (shiftScale c k d) = C c * X ^ k * toPoly d := by
  rw [shiftScale, toPoly_replicate_zero_append, toPoly_map_mul]
  ring

lemma toPoly_zipWith_sub (a : List K) : ∀ b : List K, a.length = b.length →
    toPoly (a.zipWith (fun x y => x - y) b) = toPoly a - toPoly b := by
  induction a with
  | nil =>
      intro b hb
      rw [List.length_nil] at hb
      rw [(List.eq_nil_of_length_eq_zero hb.symm)]
      simp
  | cons x a ih =>
      intro b hb
      cases b with
      | nil => simp at hb
      | cons y b =>
          rw [List.zipWith_cons_cons, toPoly_cons, toPoly_cons, toPoly_cons,
            ih b (by simpa using hb), map_sub]
          ring

lemma shiftScale_concat (c : K) (k : Nat) (d0 : List K) (dl : K) :
    shiftScale c k (d0 ++ [dl]) = shiftScale c k d0 ++ [c * dl] := by
  simp [shiftScale]

lemma shiftScale_length (c : K) (k : Nat) (d : List K) :
    (shiftScale c k d).length = k + d.length := by
  simp [shiftScale]

lemma setCoeff_length (q : List K) (k : Nat) (c : K) (h : q.length ≤ k) :
    (setCoeff q k c).length = k + 1 := by
  simp [setCoeff]
  omega

lemma polyDivModAux_stop (d : List K) (dlead : K) (fuel : Nat) (p : List K)
    (h : p.length < d.length ∨ d.length = 0) :
    polyDivModAux d dlead (fuel + 1) p = ([], p) := by
  rw [polyDivModAux, if_pos h]

lemma polyDivModAux_succ (d : List K) (dlead : K) (fuel : Nat) (p : List K)
    (h : ¬(p.length < d.length ∨ d.length = 0)) :
    polyDivModAux d dlead (fuel + 1) p
      = (setCoeff (polyDivModAux d dlead fuel
            ((p.zipWith (fun a b => a - b)
              (shiftScale (p.getLastD 0 / dlead) (p.length - d.length) d)).dropLast)).1
          (p.length - d.length) (p.getLastD 0 / dlead),
         (polyDivModAux d dlead fuel
            ((p.zipWith (fun a b => a - b)
              (shiftScale (p.getLastD 0 / dlead) (p.length - d.length) d)).dropLast)).2) := by
  rw [polyDivModAux, if_neg h]

lemma toPoly_setCoeff (q : List K) (k : Nat) (c : K) (h : q.length = k) :
    toPoly (setCoeff q k c) = toPoly q + C c * X ^ k := by
  rw [setCoeff, h, Nat.sub_self, List.replicate_zero, List.append_nil,
    toPoly_append, h, toPoly_cons, toPoly_nil, mul_zero, add_zero, mul_comm]

/-- Correctness of the modelled long division, for a divisor with nonzero
leading coefficient `dl` (written as `d0 ++ [dl]`): quotient and remainder
reconstruct the dividend, the remainder is shorter than the divisor, and
the quotient length is `len(p) + 1 - len(d)`. -/
lemma polyDivModAux_spec (d0 : List K) (dl : K) (hdl : dl ≠ 0) :
    ∀ (fuel : Nat) (p : List K), p.length ≤ fuel →
      toPoly p
          = toPoly (polyDivModAux (d0 ++ [dl]) dl fuel p).1 * toPoly (d0 ++ [dl])
            + toPoly (polyDivModAux (d0 ++ [dl]) dl fuel p).2
        ∧ (polyDivModAux (d0 ++ [dl]) dl fuel p).2.length < d0.length + 1
        ∧ (polyDivModAux (d0 ++ [dl]) dl fuel p).1.length
            = p.length + 1 - (d0.length + 1) := by
  intro fuel
  induction fuel with
  | zero =>
      intro p hp
      have hp0 : p = [] := List.eq_nil_of_length_eq_zero (Nat.le_zero.mp hp)
      subst hp0
      refine ⟨by simp [polyDivModAux], by simp [polyDivModAux], ?_⟩
      simp [polyDivModAux]
  | succ fuel ih =>
      intro p hp
      by_cases hc : p.length < (d0 ++ [dl]).length ∨ (d0 ++ [dl]).length = 0
      · rw [polyDivModAux_stop _ _ _ _ hc]
        have hlt : p.length < d0.length + 1 := by
          rcases hc with hlt | habs
          · simpa using hlt
          · simp at habs
        refine ⟨by simp, by simpa using hlt, by simp; omega⟩
      · have hge : d0.length + 1 ≤ p.length := by
          have h1 := (not_or.mp hc).1
          have h2 := Nat.le_of_not_lt h1
          simpa using h2
        have hne : p ≠ [] := by
          intro h0
          rw [h0] at hge
          simp at hge
        obtain ⟨p0, pl, rfl⟩ : ∃ p0 pl, p = p0 ++ [pl] :=
          ⟨p.dropLast, p.getLast hne, (List.dropLast_concat_getLast hne).symm⟩
        have hge0 : d0.length ≤ p0.length := by
          simp at hge
          omega
        have hsub : (p0 ++ [pl]).length - (d0 ++ [dl]).length
            = p0.length - d0.length := by
          simp
        have hlen0 : p0.length
            = (shiftScale (pl / dl) (p0.length - d0.length) d0).length := by
          rw [shiftScale_length]
          omega
        have hcd : pl / dl * dl = pl := div_mul_cancel₀ pl hdl
        rw [polyDivModAux_succ _ _ _ _ hc, List.getLastD_concat, hsub,
          shiftScale_concat, List.zipWith_append _ _ _ _ _ hlen0]
        simp only [List.zipWith_cons_cons, List.zipWith_nil_left]
        rw [List.dropLast_concat]
        have hRlen : (p0.zipWith (fun a b => a - b)
            (shiftScale (pl / dl) (p0.length - d0.length) d0)).length
            = p0.length := by
          rw [List.length_zipWith, ← hlen0, Nat.min_self]
        have hRfuel : (p0.zipWith (fun a b => a - b)
            (shiftScale (pl / dl) (p0.length - d0.length) d0)).length ≤ fuel := by
          rw [hRlen]
          simp at hp
          omega
        obtain ⟨ihA, ihB, ihC⟩ := ih _ hRfuel
        have hqlen : (polyDivModAux (d0 ++ [dl]) dl fuel
            (p0.zipWith (fun a b => a - b)
              (shiftScale (pl / dl) (p0.length - d0.length) d0))).1.length
            = p0.length - d0.length := by
          rw [ihC, hRlen]
          omega
        refine ⟨?_, ihB, ?_⟩
        · rw [toPoly_setCoeff _ _ _ hqlen]
          have h1 : toPoly (p0.zipWith (fun a b => a - b)
                (shiftScale (pl / dl) (p0.length - d0.length) d0))
              = toPoly p0
                - toPoly (shiftScale (pl / dl) (p0.length - d0.length) d0) :=
            toPoly_zipWith_sub _ _ hlen0
          have h2 : toPoly (p0 ++ [pl])
              = toPoly p0 + X ^ p0.length * C pl := by
            rw [toPoly_append, toPoly_cons, toPoly_nil, mul_zero, add_zero]
          have hsh0 : C (pl / dl) * X ^ (p0.length - d0.length)
                * toPoly (d0 ++ [dl])
              = toPoly (shiftScale (pl / dl) (p0.length - d0.length) d0)
                + X ^ p0.length * C pl := by
            rw [← toPoly_shiftScale, shiftScale_concat, toPoly_append, ← hlen0,
              hcd, toPoly_cons, toPoly_nil, mul_zero, add_zero]
          linear_combination h2 + ihA - h1 - hsh0
        · rw [setCoeff_length _ _ _ (le_of_eq hqlen)]
          simp
          omega

lemma toPoly_linear (a : K) : toPoly [-a, 1] = X - C a := by
  rw [toPoly_cons, toPoly_cons, toPoly_nil, mul_zero, add_zero, map_neg, map_one,
    mul_one]
  ring

lemma polyDivMod_linear_spec (p : List K) (a : K) :
    toPoly p
        = toPoly (polyDivMod p [-a, 1]).1 * (X - C a)
          + toPoly (polyDivMod p [-a, 1]).2
      ∧ (polyDivMod p [-a, 1]).2.length < 2
      ∧ (polyDivMod p [-a, 1]).1.length = p.length + 1 - 2 := by
  have h := polyDivModAux_spec [-a] 1 one_ne_zero p.length p le_rfl
  have hD : ([-a] ++ [1] : List K) = [-a, 1] := rfl
  rw [hD] at h
  have hlin := toPoly_linear a
  rw [hlin] at h
  rw [polyDivMod]
  have hlast : ([-a, 1] : List K).getLastD 0 = 1 := rfl
  rw [hlast]
  simpa using h

/-- A coefficient list of length `< 2` denotes a constant polynomial. -/
lemma toPoly_short (r : List K) (h : r.length < 2) :
    toPoly r = C (r.getD 0 0) := by
  match r with
  | [] => simp
  | [c] => rw [toPoly_cons, toPoly_nil, mul_zero, add_zero]; rfl
  | a :: b :: t =>
      rw [List.length_cons, List.length_cons] at h
      omega

/-- Exact division by `X - a` when `a` is a root of `p`. -/
lemma polyDivMod_linear_exact (p : List K) (a : K) (hroot : evalPoly p a = 0) :
    toPoly p = toPoly (polyDivMod p [-a, 1]).1 * (X - C a) := by
  obtain ⟨h1, h2, _⟩ := polyDivMod_linear_spec p a
  have hr := toPoly_short _ h2
  have hev := congrArg (Polynomial.eval a) h1
  rw [eval_toPoly, hroot, Polynomial.eval_add, Polynomial.eval_mul,
    Polynomial.eval_sub, Polynomial.eval_X, Polynomial.eval_C, sub_self,
    mul_zero, zero_add, hr, Polynomial.eval_C] at hev
  rw [h1, hr, ← hev, map_zero, add_zero]

/-! Facts about `zpoly`. -/

lemma zstepAux_toPoly (x : K) (l : List K) :
    toPoly (zstepAux x l) = toPoly l - C x * toPoly (l.drop 1) := by
  induction l with
  | nil => simp [zstepAux]
  | cons a t ih =>
      cases t with
      | nil => simp [zstepAux]
      | cons b rest =>
          rw [zstepAux, toPoly_cons, ih]
          simp only [List.drop_one, List.tail_cons, toPoly_cons, map_sub,
            map_mul]
          ring

lemma zstepAux_length (x : K) (l : List K) :
    (zstepAux x l).length = l.length := by
  induction l with
  | nil => rfl
  | cons a t ih =>
      cases t with
      | nil => rfl
      | cons b rest =>
          rw [zstepAux]
          simpa using ih

lemma zstep_toPoly (x : K) (root : List K) :
    toPoly (zstepAux x (0 :: root)) = (X - C x) * toPoly root := by
  rw [zstepAux_toPoly, toPoly_cons]
  simp only [List.drop_one, List.tail_cons, map_zero, zero_add]
  ring

lemma zpoly_toPoly_aux (xs : List K) : ∀ acc : List K,
    toPoly (xs.foldl (fun root x => zstepAux x (0 :: root)) acc)
      = (xs.map (fun a => X - C a)).prod * toPoly acc := by
  induction xs with
  | nil => intro acc; simp
  | cons x xs ih =>
      intro acc
      rw [List.foldl_cons, ih (zstepAux x (0 :: acc)), zstep_toPoly,
        List.map_cons, List.prod_cons]
      ring

lemma zpoly_toPoly (xs : List K) :
    toPoly (zpoly xs) = (xs.map (fun a => X - C a)).prod := by
  rw [zpoly, zpoly_toPoly_aux]
  rw [toPoly_cons, toPoly_nil, mul_zero, add_zero, map_one, mul_one]

lemma zpoly_length (xs : List K) : (zpoly xs).length = xs.length + 1 := by
  rw [zpoly]
  have h : ∀ (ws acc : List K),
      (ws.foldl (fun root x => zstepAux x (0 :: root)) acc).length
        = acc.length + ws.length := by
    intro ws
    induction ws with
    | nil => intro acc; simp
    | cons w ws ih =>
        intro acc
        rw [List.foldl_cons, ih (zstepAux w (0 :: acc)), zstepAux_length]
        simp
        omega
  rw [h xs [1]]
  simp
  omega

/-- The root `a` of every factor of `zpoly` is a root of `zpoly`. -/
lemma zpoly_eval_root (xs : List K) (a : K) (ha : a ∈ xs) :
    evalPoly (zpoly xs) a = 0 := by
  rw [← eval_toPoly, zpoly_toPoly, Polynomial.eval_list_prod]
  refine List.prod_eq_zero ?_
  refine List.mem_map.mpr ⟨X - C a, List.mem_map.mpr ⟨a, ha, rfl⟩, ?_⟩
  simp

/-! Helpers for sum/index bookkeeping in the Lagrange proof. -/

lemma list_range_map_sum (n : Nat) (f : Nat → K) :
    ((List.range n).map f).sum = ∑ j ∈ Finset.range n, f j := by
  induction n with
  | zero => simp
  | succ n ih =>
      rw [List.range_succ, List.map_append, List.sum_append,
        Finset.sum_range_succ, ih]
      simp

lemma evalPoly_eq_sum (l : List K) (x : K) :
    evalPoly l x = ∑ j ∈ Finset.range l.length, l.getD j 0 * x ^ j := by
  induction l with
  | nil => simp [evalPoly]
  | cons c t ih =>
      rw [List.length_cons, Finset.sum_range_succ']
      simp only [List.getD_cons_succ, List.getD_cons_zero, pow_zero, mul_one]
      rw [show evalPoly (c :: t) x = c + x * evalPoly t x from rfl, ih,
        Finset.mul_sum, add_comm]
      congr 1
      refine Finset.sum_congr rfl ?_
      intro j hj
      ring

lemma getD_map_lt {α β : Type} (f : α → β) (l : List α) (i : Nat)
    (h : i < l.length) (d : β) (d0 : α) :
    (l.map f).getD i d = f (l.getD i d0) := by
  rw [List.getD_eq_getElem _ _ (by simpa using h), List.getElem_map,
    List.getD_eq_getElem _ _ h]

lemma getD_map_range {β : Type} (f : Nat → β) (n i : Nat) (h : i < n) (d : β) :
    ((List.range n).map f).getD i d = f i := by
  rw [List.getD_eq_getElem _ _ (by simpa using h), List.getElem_map,
    List.getElem_range]

lemma getD_mem_of_lt {α : Type} (l : List α) (i : Nat) (h : i < l.length)
    (d : α) : l.getD i d ∈ l := by
  rw [List.getD_eq_getElem _ _ h]
  exact List.getElem_mem h

lemma prod_split_at {α M : Type} [CommMonoid M] (f : α → M) (xs : List α)
    (i : Nat) (h : i < xs.length) :
    (xs.map f).prod
      = f xs[i] * ((xs.take i ++ xs.drop (i + 1)).map f).prod := by
  have hsplit : xs.take i ++ xs[i] :: xs.drop (i + 1) = xs := by
    rw [List.getElem_cons_drop, List.take_append_drop]
  conv_lhs => rw [← hsplit]
  rw [List.map_append, List.prod_append, List.map_cons, List.prod_cons,
    List.map_append, List.prod_append, mul_left_comm]

lemma nodup_out {α : Type} (xs : List α) (i : Nat) (h : i < xs.length)
    (hnd : xs.Nodup) : ∀ w ∈ xs.take i ++ xs.drop (i + 1), w ≠ xs[i] := by
  have hsplit : xs.take i ++ xs[i] :: xs.drop (i + 1) = xs := by
    rw [List.getElem_cons_drop, List.take_append_drop]
  have h2 : (xs.take i ++ xs[i] :: xs.drop (i + 1)).Nodup := by
    rw [hsplit]; exact hnd
  rw [List.nodup_middle] at h2
  have h3 := (List.nodup_cons.mp h2).1
  intro w hw heq
  exact h3 (heq ▸ hw)

lemma ite_lagrange_term (c y s : K) :
    (if c ≠ 0 ∧ y ≠ 0 then c * (y * s) else 0) = c * (y * s) := by
  by_cases hc : c = 0
  · simp [hc]
  · by_cases hy : y = 0
    · simp [hy]
    · rw [if_pos ⟨hc, hy⟩]

lemma lagrange_interp_ok (xs ys : List K) (hlen : xs.length = ys.length) :
    lagrange_interp xs ys = .ok (lagrangeOut xs ys) := by
  have hzlen : (zpoly xs).length = ys.length + 1 := by
    rw [zpoly_length, hlen]
  simp only [lagrange_interp, hzlen, if_neg (by simp : ¬ys.length + 1 ≠ ys.length + 1),
    multi_inv_eq_map]
  rw [lagrangeOut, lagrangeDenoms, lagrangeNums]

lemma lagrangeNums_getD (xs : List K) (i : Nat) (h : i < xs.length) :
    (lagrangeNums xs).getD i [] = (polyDivMod (zpoly xs) [-(xs.getD i 0), 1]).1 := by
  rw [lagrangeNums, getD_map_lt _ _ _ h _ 0]

lemma lagrangeNums_len (xs : List K) (i : Nat) (h : i < xs.length) :
    ((lagrangeNums xs).getD i []).length = xs.length := by
  rw [lagrangeNums_getD xs i h]
  have hq := (polyDivMod_linear_spec (zpoly xs) (xs.getD i 0)).2.2
  rw [hq, zpoly_length]
  omega

lemma lagrangeOut_eval (xs ys : List K) (hlen : xs.length = ys.length)
    (hnd : xs.Nodup) (k : Nat) (hk : k < xs.length) :
    evalPoly (lagrangeOut xs ys) (xs.getD k 0) = ys.getD k 0 := by
  have haeq : xs.getD k 0 = xs[k] := List.getD_eq_getElem xs 0 hk
  have hmem : ∀ i, i < xs.length → xs.getD i 0 ∈ xs := fun i hi =>
    getD_mem_of_lt xs i hi 0
  have hexact : ∀ i, i < xs.length →
      toPoly (zpoly xs)
        = toPoly ((lagrangeNums xs).getD i []) * (X - C (xs.getD i 0)) := by
    intro i hi
    rw [lagrangeNums_getD xs i hi]
    exact polyDivMod_linear_exact _ _ (zpoly_eval_root xs _ (hmem i hi))
  have hzero : ∀ i, i < xs.length → i ≠ k →
      evalPoly ((lagrangeNums xs).getD i []) (xs.getD k 0) = 0 := by
    intro i hi hne
    have h1 := congrArg (Polynomial.eval (xs.getD k 0)) (hexact i hi)
    rw [eval_toPoly, zpoly_eval_root xs _ (hmem k hk), Polynomial.eval_mul,
      eval_toPoly, Polynomial.eval_sub, Polynomial.eval_X,
      Polynomial.eval_C] at h1
    have hax : xs.getD k 0 - xs.getD i 0 ≠ 0 := by
      refine sub_ne_zero.mpr ?_
      rw [haeq, List.getD_eq_getElem xs 0 hi]
      intro hcontra
      exact hne ((hnd.getElem_inj_iff.mp hcontra).symm)
    rcases mul_eq_zero.mp h1.symm with h2 | h2
    · exact h2
    · exact absurd h2 hax
  have hdk : evalPoly ((lagrangeNums xs).getD k []) (xs.getD k 0) ≠ 0 := by
    have hsplitP : toPoly (zpoly xs)
        = (X - C (xs.getD k 0))
          * ((xs.take k ++ xs.drop (k + 1)).map (fun w => X - C w)).prod := by
      rw [zpoly_toPoly, prod_split_at (fun w => X - C w) xs k hk, haeq]
    have h2 : toPoly ((lagrangeNums xs).getD k []) * (X - C (xs.getD k 0))
        = ((xs.take k ++ xs.drop (k + 1)).map (fun w => X - C w)).prod
          * (X - C (xs.getD k 0)) := by
      rw [← hexact k hk, hsplitP]
      ring
    have hqk := mul_right_cancel₀ (Polynomial.X_sub_C_ne_zero (xs.getD k 0)) h2
    rw [← eval_toPoly, hqk, Polynomial.eval_list_prod, List.map_map]
    refine List.prod_ne_zero ?_
    intro h0
    rw [List.mem_map] at h0
    obtain ⟨w, hw, hw0⟩ := h0
    have hwa : xs.getD k 0 = w := by
      have hsub : xs.getD k 0 - w = 0 := by simpa using hw0
      exact sub_eq_zero.mp hsub
    exact (nodup_out xs k hk hnd w hw) (by rw [← hwa, haeq])
  have hlout : (lagrangeOut xs ys).length = ys.length := by
    rw [lagrangeOut]
    simp
  rw [evalPoly_eq_sum, hlout]
  have hstep1 : ∀ j ∈ Finset.range ys.length,
      (lagrangeOut xs ys).getD j 0 * (xs.getD k 0) ^ j
        = ∑ i ∈ Finset.range xs.length,
            ((lagrangeNums xs).getD i []).getD j 0
              * (ys.getD i 0 * ((lagrangeDenoms xs).map pointInv).getD i 0)
              * (xs.getD k 0) ^ j := by
    intro j hj
    rw [Finset.mem_range] at hj
    rw [lagrangeOut, getD_map_range _ _ _ hj, list_range_map_sum,
      Finset.sum_mul]
    refine Finset.sum_congr rfl ?_
    intro i _
    rw [ite_lagrange_term]
  rw [Finset.sum_congr rfl hstep1, Finset.sum_comm]
  have hstep2 : ∀ i ∈ Finset.range xs.length,
      (∑ j ∈ Finset.range ys.length,
        ((lagrangeNums xs).getD i []).getD j 0
          * (ys.getD i 0 * ((lagrangeDenoms xs).map pointInv).getD i 0)
          * (xs.getD k 0) ^ j)
        = evalPoly ((lagrangeNums xs).getD i []) (xs.getD k 0)
            * (ys.getD i 0 * ((lagrangeDenoms xs).map pointInv).getD i 0) := by
    intro i hi
    rw [Finset.mem_range] at hi
    have hql : ((lagrangeNums xs).getD i []).length = ys.length := by
      rw [lagrangeNums_len xs i hi, hlen]
    rw [evalPoly_eq_sum, hql, Finset.sum_mul]
    refine Finset.sum_congr rfl ?_
    intro j _
    ring
  rw [Finset.sum_congr rfl hstep2]
  have hzeros : ∀ i ∈ Finset.range xs.length, i ≠ k →
      evalPoly ((lagrangeNums xs).getD i []) (xs.getD k 0)
        * (ys.getD i 0 * ((lagrangeDenoms xs).map pointInv).getD i 0) = 0 := by
    intro i hi hne
    rw [hzero i (Finset.mem_range.mp hi) hne, zero_mul]
  rw [Finset.sum_eq_single_of_mem k (Finset.mem_range.mpr hk) hzeros]
  have hdenk : (lagrangeDenoms xs).getD k 0
      = evalPoly ((lagrangeNums xs).getD k []) (xs.getD k 0) := by
    rw [lagrangeDenoms, getD_map_range _ _ _ hk]
  have hpinv : ((lagrangeDenoms xs).map pointInv).getD k 0
      = pointInv ((lagrangeDenoms xs).getD k 0) := by
    refine getD_map_lt _ _ _ ?_ _ 0
    rw [lagrangeDenoms]
    simpa using hk
  rw [hpinv, hdenk, pointInv, if_neg hdk, mul_comm (ys.getD k 0),
    ← mul_assoc, mul_inv_cancel₀ hdk, one_mul]

/-- Correctness of the general Lagrange interpolation path: on
equal-length input lists with pairwise-distinct `xs`, it succeeds and
the result evaluates to `ys[i]` at `xs[i]`. -/
theorem lagrange_interp_spec (xs ys : List K) (hlen : xs.length = ys.length)
    (hnd : xs.Nodup) :
    lagrange_interp xs ys = .ok (lagrangeOut xs ys)
      ∧ ∀ i, i < xs.length →
          evalPoly (lagrangeOut xs ys) (xs.getD i 0) = ys.getD i 0 :=
  ⟨lagrange_interp_ok xs ys hlen,
   fun i hi => lagrangeOut_eval xs ys hlen hnd i hi⟩

lemma nodup_getD_ne (xs : List K) (hnd : xs.Nodup) (i j : Nat)
    (hi : i < xs.length) (hj : j < xs.length) (hij : i ≠ j) :
    xs.getD i 0 ≠ xs.getD j 0 := by
  rw [List.getD_eq_getElem xs 0 hi, List.getD_eq_getElem xs 0 hj]
  intro h
  exact hij (hnd.getElem_inj_iff.mp h)

/-- Correctness of the optimised 2-point path: distinct sample points
give a polynomial interpolating both. -/
theorem lagrange_interp_2_spec (xs ys : List K)
    (hx : xs.getD 0 0 ≠ xs.getD 1 0) :
    ∃ out, lagrange_interp_2 xs ys = .ok out
      ∧ evalPoly out (xs.getD 0 0) = ys.getD 0 0
      ∧ evalPoly out (xs.getD 1 0) = ys.getD 1 0 := by
  have he0 : evalPoly [-(xs.getD 1 0), 1] (xs.getD 0 0)
      = xs.getD 0 0 - xs.getD 1 0 := by
    simp [evalPoly]
    ring
  have he1 : evalPoly [-(xs.getD 0 0), 1] (xs.getD 1 0)
      = xs.getD 1 0 - xs.getD 0 0 := by
    simp [evalPoly]
    ring
  have hs0 : xs.getD 0 0 - xs.getD 1 0 ≠ 0 := sub_ne_zero.mpr hx
  have hs1 : xs.getD 1 0 - xs.getD 0 0 ≠ 0 := sub_ne_zero.mpr (Ne.symm hx)
  have hne : (xs.getD 0 0 - xs.getD 1 0) * (xs.getD 1 0 - xs.getD 0 0) ≠ 0 :=
    mul_ne_zero hs0 hs1
  simp only [lagrange_interp_2, he0, he1, if_neg hne]
  refine ⟨_, rfl, ?_, ?_⟩
  all_goals
    have hr2 : List.range 2 = [0, 1] := rfl
    simp only [hr2, List.map_cons, List.map_nil, List.getD_cons_zero,
      List.getD_cons_succ, evalPoly, List.foldr_cons, List.foldr_nil,
      mul_zero, add_zero]
    have ht := mul_inv_cancel₀ hne
  · linear_combination ys.getD 0 0 * ht
  · linear_combination ys.getD 1 0 * ht

set_option maxHeartbeats 2000000 in
/-- Correctness of the optimised 4-point path: pairwise-distinct sample
points give a polynomial interpolating all four. -/
theorem lagrange_interp_4_spec (xs ys : List K)
    (h01 : xs.getD 0 0 ≠ xs.getD 1 0) (h02 : xs.getD 0 0 ≠ xs.getD 2 0)
    (h03 : xs.getD 0 0 ≠ xs.getD 3 0) (h12 : xs.getD 1 0 ≠ xs.getD 2 0)
    (h13 : xs.getD 1 0 ≠ xs.getD 3 0) (h23 : xs.getD 2 0 ≠ xs.getD 3 0) :
    ∃ out, lagrange_interp_4 xs ys = .ok out
      ∧ evalPoly out (xs.getD 0 0) = ys.getD 0 0
      ∧ evalPoly out (xs.getD 1 0) = ys.getD 1 0
      ∧ evalPoly out (xs.getD 2 0) = ys.getD 2 0
      ∧ evalPoly out (xs.getD 3 0) = ys.getD 3 0 := by
  have he0 : evalPoly [-(xs.getD 1 0 * xs.getD 2 0) * xs.getD 3 0,
      xs.getD 1 0 * xs.getD 2 0 + xs.getD 1 0 * xs.getD 3 0
        + xs.getD 2 0 * xs.getD 3 0,
      -xs.getD 1 0 - xs.getD 2 0 - xs.getD 3 0, 1] (xs.getD 0 0)
      = (xs.getD 0 0 - xs.getD 1 0) * (xs.getD 0 0 - xs.getD 2 0)
        * (xs.getD 0 0 - xs.getD 3 0) := by
    simp only [evalPoly, List.foldr_cons, List.foldr_nil, mul_zero, add_zero]
    ring
  have he1 : evalPoly [-(xs.getD 0 0 * xs.getD 2 0) * xs.getD 3 0,
      xs.getD 0 0 * xs.getD 2 0 + xs.getD 0 0 * xs.getD 3 0
        + xs.getD 2 0 * xs.getD 3 0,
      -xs.getD 0 0 - xs.getD 2 0 - xs.getD 3 0, 1] (xs.getD 1 0)
      = (xs.getD 1 0 - xs.getD 0 0) * (xs.getD 1 0 - xs.getD 2 0)
        * (xs.getD 1 0 - xs.getD 3 0) := by
    simp only [evalPoly, List.foldr_cons, List.foldr_nil, mul_zero, add_zero]
    ring
  have he2 : evalPoly [-(xs.getD 0 0 * xs.getD 1 0) * xs.getD 3 0,
      xs.getD 0 0 * xs.getD 1 0 + xs.getD 0 0 * xs.getD 3 0
        + xs.getD 1 0 * xs.getD 3 0,
      -xs.getD 0 0 - xs.getD 1 0 - xs.getD 3 0, 1] (xs.getD 2 0)
      = (xs.getD 2 0 - xs.getD 0 0) * (xs.getD 2 0 - xs.getD 1 0)
        * (xs.getD 2 0 - xs.getD 3 0) := by
    simp only [evalPoly, List.foldr_cons, List.foldr_nil, mul_zero, add_zero]
    ring
  have he3 : evalPoly [-(xs.getD 0 0 * xs.getD 1 0) * xs.getD 2 0,
      xs.getD 0 0 * xs.getD 1 0 + xs.getD 0 0 * xs.getD 2 0
        + xs.getD 1 0 * xs.getD 2 0,
      -xs.getD 0 0 - xs.getD 1 0 - xs.getD 2 0, 1] (xs.getD 3 0)
      = (xs.getD 3 0 - xs.getD 0 0) * (xs.getD 3 0 - xs.getD 1 0)
        * (xs.getD 3 0 - xs.getD 2 0) := by
    simp only [evalPoly, List.foldr_cons, List.foldr_nil, mul_zero, add_zero]
    ring
  have hP0 : (xs.getD 0 0 - xs.getD 1 0) * (xs.getD 0 0 - xs.getD 2 0)
      * (xs.getD 0 0 - xs.getD 3 0) ≠ 0 :=
    mul_ne_zero (mul_ne_zero (sub_ne_zero.mpr h01) (sub_ne_zero.mpr h02))
      (sub_ne_zero.mpr h03)
  have hP1 : (xs.getD 1 0 - xs.getD 0 0) * (xs.getD 1 0 - xs.getD 2 0)
      * (xs.getD 1 0 - xs.getD 3 0) ≠ 0 :=
    mul_ne_zero (mul_ne_zero (sub_ne_zero.mpr (Ne.symm h01))
      (sub_ne_zero.mpr h12)) (sub_ne_zero.mpr h13)
  have hP2 : (xs.getD 2 0 - xs.getD 0 0) * (xs.getD 2 0 - xs.getD 1 0)
      * (xs.getD 2 0 - xs.getD 3 0) ≠ 0 :=
    mul_ne_zero (mul_ne_zero (sub_ne_zero.mpr (Ne.symm h02))
      (sub_ne_zero.mpr (Ne.symm h12))) (sub_ne_zero.mpr h23)
  have hP3 : (xs.getD 3 0 - xs.getD 0 0) * (xs.getD 3 0 - xs.getD 1 0)
      * (xs.getD 3 0 - xs.getD 2 0) ≠ 0 :=
    mul_ne_zero (mul_ne_zero (sub_ne_zero.mpr (Ne.symm h03))
      (sub_ne_zero.mpr (Ne.symm h13))) (sub_ne_zero.mpr (Ne.symm h23))
  have hne := mul_ne_zero (mul_ne_zero hP0 hP1) (mul_ne_zero hP2 hP3)
  simp only [lagrange_interp_4, he0, he1, he2, he3, if_neg hne]
  refine ⟨_, rfl, ?_, ?_, ?_, ?_⟩
  all_goals
    have hr4 : List.range 4 = [0, 1, 2, 3] := rfl
    simp only [hr4, List.map_cons, List.map_nil, List.getD_cons_zero,
      List.getD_cons_succ, evalPoly, List.foldr_cons, List.foldr_nil,
      mul_zero, add_zero]
    have ht := mul_inv_cancel₀ hne
  · linear_combination ys.getD 0 0 * ht
  · linear_combination ys.getD 1 0 * ht
  · linear_combination ys.getD 2 0 * ht
  · linear_combination ys.getD 3 0 * ht

section Trace

variable {α : Type} [Inhabited α] (width : Nat)
  (step_polys : List (List α → α)) (inp : List α)

lemma traceAux_len (n : Nat) :
    (traceAux width step_polys inp n).1.length = n + 1 := by
  induction n with
  | zero => rfl
  | succ n ih =>
      rw [traceAux]
      simpa using ih

lemma traceAux_last (n : Nat) :
    (traceAux width step_polys inp n).2
      = (traceAux width step_polys inp n).1.getD n [] := by
  induction n with
  | zero => rfl
  | succ n _ =>
      rw [traceAux]
      rw [List.getD_append_right _ _ _ _ (by rw [traceAux_len])]
      rw [traceAux_len]
      simp

lemma traceAux_head (n : Nat) :
    (traceAux width step_polys inp n).1.getD 0 [] = inp := by
  induction n with
  | zero => rfl
  | succ n ih =>
      rw [traceAux]
      rw [List.getD_append _ _ _ _ (by rw [traceAux_len]; omega)]
      exact ih

lemma traceAux_step (n : Nat) : ∀ i, i < n →
    (traceAux width step_polys inp n).1.getD (i + 1) []
      = (List.range width).map (fun j =>
          (step_polys.getD j default)
            ((traceAux width step_polys inp n).1.getD i [])) := by
  induction n with
  | zero => intro i hi; omega
  | succ n ih =>
      intro i hi
      rw [traceAux]
      by_cases hlt : i < n
      · rw [List.getD_append _ _ _ _ (by rw [traceAux_len]; omega),
          List.getD_append _ _ _ _ (by rw [traceAux_len]; omega)]
        exact ih i hlt
      · have hie : i = n := by omega
        subst hie
        rw [List.getD_append_right _ _ _ _ (by rw [traceAux_len]),
          List.getD_append _ _ _ _ (by rw [traceAux_len]; omega)]
        rw [traceAux_len]
        simp only [Nat.sub_self, List.getD_cons_zero]
        rw [← traceAux_last]

end Trace

section SpotChecks

variable {τ β : Type} (mk_branch : τ → Nat → β) (mtree l_mtree : τ)
  (precision extension_factor : Nat)

lemma spot_checks_foldl (ps : List Nat) : ∀ acc : List β,
    ps.foldl (fun branches pos =>
      branches ++ [mk_branch mtree pos,
                   mk_branch mtree ((pos + extension_factor) % precision),
                   mk_branch l_mtree pos]) acc
      = acc ++ spotChunks mk_branch mtree l_mtree precision extension_factor ps := by
  induction ps with
  | nil => intro acc; simp [spotChunks]
  | cons p ps ih =>
      intro acc
      rw [List.foldl_cons, ih, spotChunks, List.append_assoc]
      rfl

lemma compute_merkle_spot_checks_eq (ps : List Nat) :
    compute_merkle_spot_checks mk_branch mtree l_mtree precision extension_factor ps
      = spotChunks mk_branch mtree l_mtree precision extension_factor ps := by
  rw [compute_merkle_spot_checks, spot_checks_foldl, List.nil_append]

lemma spotChunks_length (ps : List Nat) :
    (spotChunks mk_branch mtree l_mtree precision extension_factor ps).length
      = 3 * ps.length := by
  induction ps with
  | nil => rfl
  | cons p ps ih =>
      rw [spotChunks, List.length_append, ih]
      simp [spotChunk]
      omega

lemma spotChunks_getD (ps : List Nat) : ∀ (i k : Nat), i < ps.length → k < 3 →
    ∀ d : β,
      (spotChunks mk_branch mtree l_mtree precision extension_factor ps).getD
          (i * 3 + k) d
        = (spotChunk mk_branch mtree l_mtree precision extension_factor
            (ps.getD i 0)).getD k d := by
  induction ps with
  | nil => intro i k hi _ _; simp at hi
  | cons p ps ih =>
      intro i k hi hk d
      rw [spotChunks]
      cases i with
      | zero =>
          rw [List.getD_append _ _ _ _ (by simp [spotChunk]; omega)]
          have h0 : 0 * 3 + k = k := by omega
          rw [h0]
          rfl
      | succ i =>
          rw [List.getD_append_right _ _ _ _ (by simp [spotChunk]; omega)]
          have harith : (i + 1) * 3 + k
              - (spotChunk mk_branch mtree l_mtree precision extension_factor p).length
              = i * 3 + k := by
            simp [spotChunk]
            omega
          rw [harith, ih i k (by simpa using hi) hk d]
          rfl

end SpotChecks

lemma getD_default_or_mem {α : Type} (l : List α) (i : Nat) (d : α) :
    l.getD i d = d ∨ l.getD i d ∈ l := by
  by_cases h : i < l.length
  · right
    rw [List.getD_eq_getElem _ _ h]
    exact List.getElem_mem h
  · left
    exact List.getD_eq_default _ _ (Nat.le_of_not_lt h)

lemma intFromBytes_aux (bs : List Nat) : ∀ acc : Nat, (∀ b ∈ bs, b < 256) →
    bs.foldl (fun acc b => acc * 256 + b) acc < (acc + 1) * 256 ^ bs.length := by
  induction bs with
  | nil =>
      intro acc _
      simpa using Nat.lt_succ_self acc
  | cons b bs ih =>
      intro acc hb
      rw [List.foldl_cons]
      have h1 := ih (acc * 256 + b) (fun x hx => hb x (List.mem_cons_of_mem _ hx))
      refine lt_of_lt_of_le h1 ?_
      have hb0 : b < 256 := hb b (List.mem_cons_self b bs)
      have h2 : acc * 256 + b + 1 ≤ (acc + 1) * 256 := by omega
      calc (acc * 256 + b + 1) * 256 ^ bs.length
        ≤ (acc + 1) * 256 * 256 ^ bs.length := Nat.mul_le_mul_right _ h2
        _ = (acc + 1) * 256 ^ (b :: bs).length := by
            rw [List.length_cons, pow_succ]
            ring

lemma intFromBytes_lt (bs : List Nat) (hb : ∀ b ∈ bs, b < 256) :
    intFromBytes bs < 256 ^ bs.length := by
  have h := intFromBytes_aux bs 0 hb
  rw [zero_add, one_mul] at h
  exact h

lemma multi_inv_entries (values : List K) (i : Nat) (hi : i < values.length) :
    (values.map pointInv).getD i 0 = pointInv (values.getD i 0) :=
  getD_map_lt pointInv values i hi 0 0

/-! ## Claims -/

/-- Claim C1 (code_bug): completeness fails in this snapshot because
`mk_proof` cannot run: after its three asserts it calls
`Computation(inp, steps, constants, step_fn)`, which is missing the
required `dims` argument of `Computation.__init__`, so Python raises
`TypeError` before any proof is constructed.  Evaluated here on the
Fibonacci scenario (input `[0, 1]`, 8 steps, width 2). -/
theorem claim_C1 :
    mk_proof [0, 1] 8 [] (fun s _ => [s.getD 1 0, s.getD 0 0 + s.getD 1 0]) 2 2 8
      = .error .typeError := by rfl

/-- Claim C2 (counterexample): on a concrete, well-formed argument list
`verify_proof` raises `TypeError` (the broken `Computation` call) rather
than returning `False`: verification failures are not converted into a
negative boolean result. -/
theorem claim_C2_counterexample :
    verify_proof (β := List Nat) (φ := List Nat) [0, 1] 8 [] [13, 21]
      ([], [], [], []) (fun s _ => [s.getD 1 0, s.getD 0 0 + s.getD 1 0]) 2 8
      = .error .typeError := by rfl

/-- Claim C2 (amended): `verify_proof` never returns `False`; every
invocation raises an exception — `AssertionError` when the `steps`
bound check fails, otherwise the `TypeError` at the `Computation`
construction (and had that call been correct, the verification checks
themselves are `assert` statements, which also raise). -/
theorem claim_C2 {β φ : Type} (inp : List Int) (steps : Nat)
    (constants : List (List Int)) (output : List Int)
    (proof : List Nat × List Nat × List β × φ)
    (step_fn : List Int → List Int → List Int)
    (constraint_degree extension_factor : Nat) :
    ∃ e, verify_proof inp steps constants output proof step_fn
      constraint_degree extension_factor = .error e := by
  obtain ⟨a, b, c, d⟩ := proof
  by_cases h : steps ≤ 2 ^ 32 / extension_factor
  · exact ⟨.typeError, by rw [verify_proof, if_neg (not_not_intro h)]⟩
  · exact ⟨.assertionError, by rw [verify_proof, if_pos h]⟩

set_option maxRecDepth 8000 in
/-- Claim C3 (counterexample): the entries of `c_of_p_evals` are not all
in `[0, p)`: with no constants, one dimension, `precision = 2` and
trace-polynomial evaluations `[[0], [1]]` (all in `[0, p)`), the MiMC
step `x ↦ x³ + 1` produces the entry `-2`, because Python parses
`p_next[dim] - step_p[dim] % modulus` as
`p_next[dim] - (step_p[dim] % modulus)` and never reduces the
difference. -/
theorem claim_C3_counterexample :
    ¬(∀ row ∈ construct_constraint_polynomial 1 2 1 2 (MODULUS : Int) 1 1 []
          (fun s _ => [(s.getD 0 0 ^ 3 + 1) % (MODULUS : Int)]) [[0], [1]],
        ∀ v ∈ row, 0 ≤ v ∧ v < (MODULUS : Int)) := by decide

/-- Claim C3 (amended): if every entry of `p_evaluations` lies in
`[0, p)`, then every entry of every vector of `c_of_p_evals` lies in
the symmetric range `(-p, p)` — the step value is reduced mod `p` but
the difference is not, so entries may be negative. -/
theorem claim_C3 (dims steps extension_factor precision : Nat) (pmod : Int)
    (G1 G2 : Int) (constants : List (List Int))
    (step_fn : List Int → List Int → List Int)
    (p_evaluations : List (List Int)) (hp : 0 < pmod)
    (hpe : ∀ row ∈ p_evaluations, ∀ v ∈ row, 0 ≤ v ∧ v < pmod) :
    ∀ row ∈ construct_constraint_polynomial dims steps extension_factor
        precision pmod G1 G2 constants step_fn p_evaluations,
      ∀ v ∈ row, -pmod < v ∧ v < pmod := by
  intro row hrow v hv
  simp only [construct_constraint_polynomial] at hrow
  rw [List.mem_map] at hrow
  obtain ⟨pr, hpr, rfl⟩ := hrow
  rw [List.mem_map] at hv
  obtain ⟨dim, _, rfl⟩ := hv
  obtain ⟨a, b⟩ := pr
  have hmem := List.of_mem_zip hpr
  have hA : 0 ≤ a.getD dim 0 ∧ a.getD dim 0 < pmod := by
    rcases List.mem_map.mp hmem.1 with ⟨i, _, ha⟩
    have hrow2 : a = [] ∨ a ∈ p_evaluations := by
      rcases getD_default_or_mem p_evaluations
          ((i + extension_factor) % precision) [] with hd | hm
      · left; rw [← ha, hd]
      · right; rw [← ha]; exact hm
    rcases hrow2 with rfl | hm
    · exact ⟨le_refl 0, hp⟩
    · rcases getD_default_or_mem a dim 0 with hd | hmv
      · rw [hd]; exact ⟨le_refl 0, hp⟩
      · exact hpe a hm _ hmv
  have hB : 0 ≤ b.getD dim 0 % pmod ∧ b.getD dim 0 % pmod < pmod :=
    ⟨Int.emod_nonneg _ (ne_of_gt hp), Int.emod_lt_of_pos _ hp⟩
  show -pmod < a.getD dim 0 - b.getD dim 0 % pmod
    ∧ a.getD dim 0 - b.getD dim 0 % pmod < pmod
  constructor
  · omega
  · omega

set_option maxRecDepth 8000 in
/-- Claim C3 (witness): the amended range bound holds on the concrete
input of the counterexample. -/
theorem claim_C3_witness :
    0 < (MODULUS : Int)
    ∧ (-(MODULUS : Int) < -2 ∧ (-2 : Int) < (MODULUS : Int)) :=
  ⟨by decide,
   claim_C3 1 2 1 2 (MODULUS : Int) 1 1 []
     (fun s _ => [(s.getD 0 0 ^ 3 + 1) % (MODULUS : Int)]) [[0], [1]]
     (by decide) (by decide) [-2] (by decide) (-2) (by decide)⟩

set_option maxRecDepth 8000 in
/-- Claim C4 (counterexample): the challenges `k1..k4` are not reduced
mod `p` when derived: for the (spec-consistent) 256-bit hash whose
digest is 32 `0xff` bytes, each derived challenge equals `2^256 - 1`,
which is not below `p = 2^256 - 351·2^32 + 1`. -/
theorem claim_C4_counterexample :
    ¬(∀ k ∈ compute_ks (fun _ => List.replicate 32 255) [], k < MODULUS) := by
  decide

/-- Claim C4 (amended): each derived challenge
`k_t = int.from_bytes(blake(root ‖ tag))` is an integer in
`[0, 2^256)` — the raw 32-byte digest value with no reduction mod `p`;
reduction happens only at the use sites, inside expressions taken mod
the modulus. -/
theorem claim_C4 (blake : List Nat → List Nat) (root : List Nat)
    (hlen : ∀ bs, (blake bs).length = 32)
    (hbyte : ∀ bs b, b ∈ blake bs → b < 256) :
    ∀ k ∈ compute_ks blake root, k < 2 ^ 256 := by
  have h256 : (256 : Nat) ^ 32 = 2 ^ 256 := by norm_num
  have key : ∀ t : Nat, intFromBytes (blake (root ++ [t])) < 2 ^ 256 := by
    intro t
    have h := intFromBytes_lt (blake (root ++ [t])) (fun b hb => hbyte _ b hb)
    rwa [hlen, h256] at h
  intro k hk
  simp only [compute_ks, List.mem_cons, List.not_mem_nil, or_false] at hk
  rcases hk with rfl | rfl | rfl | rfl <;> exact key _

/-- Claim C4 (witness): the hypotheses are satisfiable and the bound is
realised on the all-`0xff` digest. -/
theorem claim_C4_witness :
    intFromBytes (List.replicate 32 255) < 2 ^ 256 :=
  claim_C4 (fun _ => List.replicate 32 255) [] (fun _ => rfl)
    (fun _ b hb => by rw [List.eq_of_mem_replicate hb]; omega)
    (intFromBytes (List.replicate 32 255)) (by simp [compute_ks])

/-- Claim C5 (confirmed): the AIR computational trace starts at the
declared input, advances by applying each of the `width` step
polynomials to the previous state, has length `steps`, and the returned
output is its last state. -/
theorem claim_C5 {α : Type} [Inhabited α] (inp : List α) (steps width : Nat)
    (step_polys : List (List α → α)) (hsteps : 1 ≤ steps)
    (hw : step_polys.length = width) :
    (get_computational_trace inp steps width step_polys).1.length = steps
    ∧ (get_computational_trace inp steps width step_polys).1.getD 0 [] = inp
    ∧ (∀ i, i + 1 < steps → ∀ j, j < width →
        ((get_computational_trace inp steps width step_polys).1.getD (i + 1) []).getD
            j default
          = (step_polys.getD j default)
              ((get_computational_trace inp steps width step_polys).1.getD i []))
    ∧ (get_computational_trace inp steps width step_polys).2
        = (get_computational_trace inp steps width step_polys).1.getD (steps - 1) [] := by
  refine ⟨?_, ?_, ?_, ?_⟩
  · simp only [get_computational_trace]
    rw [traceAux_len]
    omega
  · simp only [get_computational_trace]
    exact traceAux_head width step_polys inp (steps - 1)
  · intro i hi j hj
    simp only [get_computational_trace]
    rw [traceAux_step width step_polys inp (steps - 1) i (by omega)]
    rw [getD_map_range _ _ _ hj]
  · simp only [get_computational_trace]
    exact traceAux_last width step_polys inp (steps - 1)

/-- Claim C5 (witness): the Fibonacci trace of width 2 over `Int`. -/
theorem claim_C5_witness :
    (1 ≤ 5
      ∧ ([fun s => s.getD 1 0, fun s => s.getD 0 0 + s.getD 1 0] :
          List (List Int → Int)).length = 2)
    ∧ (get_computational_trace ([0, 1] : List Int) 5 2
        [fun s => s.getD 1 0, fun s => s.getD 0 0 + s.getD 1 0]).1.length = 5 :=
  ⟨⟨by omega, rfl⟩,
   (claim_C5 [0, 1] 5 2
     [fun s => s.getD 1 0, fun s => s.getD 0 0 + s.getD 1 0]
     (by omega) rfl).1⟩

/-- Claim C6 (confirmed): on a vector with no zero entries the batched
inverse succeeds, preserves length, and every output is the inverse of
the matching input. -/
theorem claim_C6 {K : Type} [Field K] [DecidableEq K] (values : List K)
    (hnz : ∀ v ∈ values, v ≠ 0) :
    ∃ outs, multi_inv values = .ok outs ∧ outs.length = values.length
      ∧ ∀ i, i < values.length → outs.getD i 0 * values.getD i 0 = 1 := by
  refine ⟨values.map pointInv, multi_inv_eq_map values, by simp, ?_⟩
  intro i hi
  rw [multi_inv_entries values i hi]
  have hv : values.getD i 0 ≠ 0 := hnz _ (getD_mem_of_lt values i hi 0)
  rw [pointInv, if_neg hv, inv_mul_cancel₀ hv]

/-- Claim C6 (witness): the batched inverse of `[1, 2, 3, 4]` over
`ZMod 5`. -/
theorem claim_C6_witness :
    (∀ v ∈ ([1, 2, 3, 4] : List (ZMod 5)), v ≠ 0)
    ∧ ∃ outs, multi_inv ([1, 2, 3, 4] : List (ZMod 5)) = .ok outs
        ∧ outs.length = ([1, 2, 3, 4] : List (ZMod 5)).length
        ∧ ∀ i, i < ([1, 2, 3, 4] : List (ZMod 5)).length →
            outs.getD i 0 * ([1, 2, 3, 4] : List (ZMod 5)).getD i 0 = 1 :=
  ⟨by decide, claim_C6 ([1, 2, 3, 4] : List (ZMod 5)) (by decide)⟩

/-- Claim C7 (counterexample): `multi_inv` does not reject a vector
containing zero: on `[0, 2]` over `ZMod 5` it returns a result (`0` at
the zero entry, the inverse elsewhere) instead of an error. -/
theorem claim_C7_counterexample :
    (0 : ZMod 5) ∈ ([0, 2] : List (ZMod 5))
    ∧ multi_inv ([0, 2] : List (ZMod 5)) = .ok [0, (2 : ZMod 5)⁻¹] := by
  refine ⟨by decide, ?_⟩
  rw [multi_inv_eq_map, List.map_cons, List.map_cons, List.map_nil]
  rw [pointInv, if_pos rfl, pointInv, if_neg (by decide)]

/-- Claim C7 (amended): on a vector containing a zero entry `multi_inv`
does not raise: it skips zeros in the partial products and returns a
result of the same length with `0` at exactly those positions and exact
inverses elsewhere. -/
theorem claim_C7 {K : Type} [Field K] [DecidableEq K] (values : List K)
    (hz : (0 : K) ∈ values) :
    ∃ outs, multi_inv values = .ok outs ∧ outs.length = values.length
      ∧ ∀ i, i < values.length →
          (values.getD i 0 = 0 → outs.getD i 0 = 0)
          ∧ (values.getD i 0 ≠ 0 → outs.getD i 0 * values.getD i 0 = 1) := by
  refine ⟨values.map pointInv, multi_inv_eq_map values, by simp, ?_⟩
  intro i hi
  rw [multi_inv_entries values i hi]
  constructor
  · intro h0
    rw [pointInv, if_pos h0]
  · intro hv
    rw [pointInv, if_neg hv, inv_mul_cancel₀ hv]

/-- Claim C7 (witness): the amended behaviour on `[0, 2]` over
`ZMod 5`. -/
theorem claim_C7_witness :
    ((0 : ZMod 5) ∈ ([0, 2] : List (ZMod 5)))
    ∧ ∃ outs, multi_inv ([0, 2] : List (ZMod 5)) = .ok outs
        ∧ outs.length = ([0, 2] : List (ZMod 5)).length
        ∧ ∀ i, i < ([0, 2] : List (ZMod 5)).length →
            (([0, 2] : List (ZMod 5)).getD i 0 = 0 → outs.getD i 0 = 0)
            ∧ (([0, 2] : List (ZMod 5)).getD i 0 ≠ 0 →
                outs.getD i 0 * ([0, 2] : List (ZMod 5)).getD i 0 = 1) :=
  ⟨by decide, claim_C7 ([0, 2] : List (ZMod 5)) (by decide)⟩

/-- Claim C10 (confirmed): `multi_inv` is total on every input vector —
it never raises, preserves length, outputs `0` exactly at the zero
entries, and inverts every nonzero entry. -/
theorem claim_C10 {K : Type} [Field K] [DecidableEq K] (values : List K) :
    ∃ outs, multi_inv values = .ok outs ∧ outs.length = values.length
      ∧ ∀ i, i < values.length →
          (outs.getD i 0 = 0 ↔ values.getD i 0 = 0)
          ∧ (values.getD i 0 ≠ 0 → outs.getD i 0 * values.getD i 0 = 1) := by
  refine ⟨values.map pointInv, multi_inv_eq_map values, by simp, ?_⟩
  intro i hi
  rw [multi_inv_entries values i hi]
  constructor
  · constructor
    · intro h0
      by_contra hv
      rw [pointInv, if_neg hv] at h0
      exact (inv_ne_zero hv) h0
    · intro h0
      rw [pointInv, if_pos h0]
  · intro hv
    rw [pointInv, if_neg hv, inv_mul_cancel₀ hv]

/-- Claim C10 (witness): totality on a vector mixing zero and nonzero
entries over `ZMod 5`. -/
theorem claim_C10_witness :
    ∃ outs, multi_inv ([0, 3] : List (ZMod 5)) = .ok outs
      ∧ outs.length = ([0, 3] : List (ZMod 5)).length
      ∧ ∀ i, i < ([0, 3] : List (ZMod 5)).length →
          (outs.getD i 0 = 0 ↔ ([0, 3] : List (ZMod 5)).getD i 0 = 0)
          ∧ (([0, 3] : List (ZMod 5)).getD i 0 ≠ 0 →
              outs.getD i 0 * ([0, 3] : List (ZMod 5)).getD i 0 = 1) :=
  claim_C10 ([0, 3] : List (ZMod 5))

/-- Claim C8 (confirmed): Lagrange interpolation evaluated at each
sample point returns the matching value, for the general path and for
the optimised 2-point and 4-point paths (on inputs of the matching
lengths). -/
theorem claim_C8 {K : Type} [Field K] [DecidableEq K] (xs ys : List K)
    (hlen : xs.length = ys.length) (hnd : xs.Nodup) :
    (∃ out, lagrange_interp xs ys = .ok out
      ∧ ∀ i, i < xs.length → evalPoly out (xs.getD i 0) = ys.getD i 0)
    ∧ (xs.length = 2 →
      ∃ out, lagrange_interp_2 xs ys = .ok out
        ∧ evalPoly out (xs.getD 0 0) = ys.getD 0 0
        ∧ evalPoly out (xs.getD 1 0) = ys.getD 1 0)
    ∧ (xs.length = 4 →
      ∃ out, lagrange_interp_4 xs ys = .ok out
        ∧ evalPoly out (xs.getD 0 0) = ys.getD 0 0
        ∧ evalPoly out (xs.getD 1 0) = ys.getD 1 0
        ∧ evalPoly out (xs.getD 2 0) = ys.getD 2 0
        ∧ evalPoly out (xs.getD 3 0) = ys.getD 3 0) := by
  refine ⟨?_, ?_, ?_⟩
  · obtain ⟨h1, h2⟩ := lagrange_interp_spec xs ys hlen hnd
    exact ⟨lagrangeOut xs ys, h1, h2⟩
  · intro h2len
    exact lagrange_interp_2_spec xs ys
      (nodup_getD_ne xs hnd 0 1 (by omega) (by omega) (by omega))
  · intro h4len
    exact lagrange_interp_4_spec xs ys
      (nodup_getD_ne xs hnd 0 1 (by omega) (by omega) (by omega))
      (nodup_getD_ne xs hnd 0 2 (by omega) (by omega) (by omega))
      (nodup_getD_ne xs hnd 0 3 (by omega) (by omega) (by omega))
      (nodup_getD_ne xs hnd 1 2 (by omega) (by omega) (by omega))
      (nodup_getD_ne xs hnd 1 3 (by omega) (by omega) (by omega))
      (nodup_getD_ne xs hnd 2 3 (by omega) (by omega) (by omega))

/-- Claim C8 (witness): interpolation through four points over
`ZMod 7`. -/
theorem claim_C8_witness :
    (([1, 2, 3, 4] : List (ZMod 7)).length
        = ([2, 5, 3, 1] : List (ZMod 7)).length)
    ∧ ([1, 2, 3, 4] : List (ZMod 7)).Nodup
    ∧ ∃ out, lagrange_interp ([1, 2, 3, 4] : List (ZMod 7)) [2, 5, 3, 1]
          = .ok out
        ∧ ∀ i, i < ([1, 2, 3, 4] : List (ZMod 7)).length →
            evalPoly out (([1, 2, 3, 4] : List (ZMod 7)).getD i 0)
              = ([2, 5, 3, 1] : List (ZMod 7)).getD i 0 :=
  ⟨rfl, by decide,
   (claim_C8 ([1, 2, 3, 4] : List (ZMod 7)) [2, 5, 3, 1] rfl (by decide)).1⟩

/-- Claim C9 (confirmed): the prover's openings list has length
`3 · spot_check_security_factor` (given that the index sampler returns
`spot_check_security_factor` positions) and is ordered by sampled
position: for the `i`-th position `pos`, entries `3i`, `3i+1`, `3i+2`
are the main-tree branch at `pos`, the main-tree branch at
`(pos + extension_factor) % precision`, and the L-tree branch at `pos`
— exactly the (root, leaf index) pairs `verify_proof_at_position`
checks those entries against. -/
theorem claim_C9 {τ β : Type} (mk_branch : τ → Nat → β) (mtree l_mtree : τ)
    (precision extension_factor : Nat) (positions : List Nat)
    (hsamples : positions.length = spot_check_security_factor) :
    (compute_merkle_spot_checks mk_branch mtree l_mtree precision
        extension_factor positions).length = 3 * spot_check_security_factor
    ∧ ∀ i, i < positions.length → ∀ d : β,
        ∀ t ∈ verifier_consumes precision extension_factor i
            (positions.getD i 0),
          (compute_merkle_spot_checks mk_branch mtree l_mtree precision
              extension_factor positions).getD t.1 d
            = mk_branch (if t.2.1 then mtree else l_mtree) t.2.2 := by
  constructor
  · rw [compute_merkle_spot_checks_eq, spotChunks_length, hsamples]
  · intro i hi d t ht
    rw [compute_merkle_spot_checks_eq]
    simp only [verifier_consumes, List.mem_cons, List.not_mem_nil,
      or_false] at ht
    rcases ht with rfl | rfl | rfl
    · show (spotChunks mk_branch mtree l_mtree precision extension_factor
          positions).getD (i * 3) d = mk_branch mtree (positions.getD i 0)
      have h := spotChunks_getD mk_branch mtree l_mtree precision
        extension_factor positions i 0 hi (by omega) d
      rw [Nat.add_zero] at h
      rw [h]
      rfl
    · show (spotChunks mk_branch mtree l_mtree precision extension_factor
          positions).getD (i * 3 + 1) d
        = mk_branch mtree ((positions.getD i 0 + extension_factor) % precision)
      rw [spotChunks_getD mk_branch mtree l_mtree precision extension_factor
        positions i 1 hi (by omega) d]
      rfl
    · show (spotChunks mk_branch mtree l_mtree precision extension_factor
          positions).getD (i * 3 + 2) d = mk_branch l_mtree (positions.getD i 0)
      rw [spotChunks_getD mk_branch mtree l_mtree precision extension_factor
        positions i 2 hi (by omega) d]
      rfl

/-- Claim C9 (witness): the layout on a concrete run with 80 sampled
positions. -/
theorem claim_C9_witness :
    (List.replicate 80 1).length = spot_check_security_factor
    ∧ (compute_merkle_spot_checks (fun t i => (t, i)) (1 : Nat) 2 16 8
        (List.replicate 80 1)).length = 3 * spot_check_security_factor :=
  ⟨rfl,
   (claim_C9 (fun t i => (t, i)) (1 : Nat) 2 16 8 (List.replicate 80 1) rfl).1⟩

end Starks

